import Mathlib

/-!
Verification development for the hookify rule-evaluation engine and the
SOCKS connection-monitor browser extension of this repository.

The rule engine (`plugins/hookify/core/config_loader.py`,
`plugins/hookify/core/rule_engine.py`, `plugins/hookify/hooks/*.py`) is not
present in the source tree available here; only its documentation
(`.github/copilot-instructions.md`) is.  Its definitions below are therefore
modelled from the specification, as marked on each definition.

The browser-extension worker (`projects/socks-connection-monitor/extension/
background.js`) is present, and its definitions are embedded from that file.
-/

/-- Modelled from the spec: structured diagnostics accumulated by the engine
(the spec describes them as "a list of non-fatal error strings"; we keep them
structured so that distinct error kinds are distinguishable). -/
inductive Diag where
  | malformedFile (fileName : String)
  | missingEvent (fileName : String)
  | invalidPattern (pat : String)
  | unknownOp (op : String)
  | dirUnreadable
  deriving DecidableEq, Repr

/-! ## A small regular-expression engine

Modelled from the spec: the missing engine compiles each pattern with the
case-insensitive flag and uses unanchored search (`re.search` semantics).
We model the subset of regex syntax the spec exercises: literal characters,
escaped literals, the classes `\s`, `\d`, `\w`, the zero-width boundary
`\b`, the wildcard `.`, and the quantifiers `+` and `*` on single atoms.
Unsupported metacharacters make compilation fail, modelling a pattern that
fails to compile. -/

/-- A single-character regex atom. Literal characters are stored lowercased:
the case-insensitive flag is baked in at compilation time. -/
inductive RAtom where
  | lit (c : Char)
  | anyChar
  | space
  | digit
  | word
  deriving DecidableEq, Repr

/-- A compiled regex token: a single atom, a starred atom, or a word
boundary. `a+` is compiled as `a` followed by `a*`. -/
inductive RTok where
  | once (a : RAtom)
  | star (a : RAtom)
  | wordB
  deriving DecidableEq, Repr

/-- Lexer output: an atom, the boundary `\b`, or a quantifier. -/
inductive RLex where
  | atom (a : RAtom)
  | bound
  | plusQ
  | starQ
  deriving DecidableEq, Repr

/-- Metacharacters outside the modelled subset: a pattern using them fails
to compile in the model. -/
def rMetaChars : List Char := ['(', ')', '[', ']', '\x7b', '\x7d', '|', '?', '^', '$']

/-- The atom denoted by an escape sequence `\c`. -/
def escAtom (c : Char) : RAtom :=
  if c = 's' then RAtom.space
  else if c = 'd' then RAtom.digit
  else if c = 'w' then RAtom.word
  else RAtom.lit c.toLower

/-- Lex a pattern into atoms, boundaries and quantifiers. A trailing
backslash fails. -/
def lexRegex : List Char → Option (List RLex)
  | [] => some []
  | '\\' :: [] => none
  | '\\' :: c :: rest =>
    (fun ls => (if c = 'b' then RLex.bound else RLex.atom (escAtom c)) :: ls) <$> lexRegex rest
  | '+' :: rest => (fun ls => RLex.plusQ :: ls) <$> lexRegex rest
  | '*' :: rest => (fun ls => RLex.starQ :: ls) <$> lexRegex rest
  | '.' :: rest => (fun ls => RLex.atom RAtom.anyChar :: ls) <$> lexRegex rest
  | c :: rest =>
    if c ∈ rMetaChars then none
    else (fun ls => RLex.atom (RAtom.lit c.toLower) :: ls) <$> lexRegex rest

/-- Turn the lexed pattern into compiled tokens; a quantifier with nothing
(or only a zero-width boundary) to repeat fails to compile. -/
def toksOfLex : List RLex → Option (List RTok)
  | [] => some []
  | RLex.atom a :: RLex.plusQ :: rest =>
    (fun ts => RTok.once a :: RTok.star a :: ts) <$> toksOfLex rest
  | RLex.atom a :: RLex.starQ :: rest => (fun ts => RTok.star a :: ts) <$> toksOfLex rest
  | RLex.atom a :: rest => (fun ts => RTok.once a :: ts) <$> toksOfLex rest
  | RLex.bound :: RLex.plusQ :: _ => none
  | RLex.bound :: RLex.starQ :: _ => none
  | RLex.bound :: rest => (fun ts => RTok.wordB :: ts) <$> toksOfLex rest
  | RLex.plusQ :: _ => none
  | RLex.starQ :: _ => none

/-- Modelled from the spec: compile a pattern text case-insensitively;
`none` models a pattern that fails to compile. -/
def compileRegex (pat : String) : Option (List RTok) :=
  match lexRegex pat.toList with
  | none => none
  | some ls => toksOfLex ls

/-- Word characters for the `\w` class and `\b` boundaries. -/
def wordChar (c : Char) : Bool := c.isAlphanum || c = '_'

/-- Whitespace characters for the `\s` class. -/
def isSpaceChar (c : Char) : Bool :=
  c = ' ' || c = '\t' || c = '\n' || c = '\r' || c = '\x0b' || c = '\x0c'

/-- Does an atom match one character? Case-insensitivity: the input
character is lowercased before comparison with the (lowercased) literal. -/
def atomMatches : RAtom → Char → Bool
  | RAtom.lit c, ch => ch.toLower == c
  | RAtom.anyChar, ch => ch != '\n'
  | RAtom.space, ch => isSpaceChar ch
  | RAtom.digit, ch => ch.isDigit
  | RAtom.word, ch => wordChar ch

/-- Is there a word boundary between the previous character and the next
one (either may be absent at the ends of the input)? -/
def atBoundary (prev next : Option Char) : Bool :=
  (match prev with | some c => wordChar c | none => false) !=
  (match next with | some c => wordChar c | none => false)

/-- Match compiled tokens against the end of input: `once` needs a
character, `star` and `\b` are satisfiable with none left. -/
def reMatchNil : List RTok → Option Char → Bool
  | [], _ => true
  | RTok.wordB :: ts, prev => atBoundary prev none && reMatchNil ts prev
  | RTok.once _ :: _, _ => false
  | RTok.star _ :: ts, prev => reMatchNil ts prev

/-- Match compiled tokens when the next input character is `c`; `recur`
matches token lists against the input after `c`. -/
def reMatchGo (c : Char) (recur : List RTok → Option Char → Bool) :
    List RTok → Option Char → Bool
  | [], _ => true
  | RTok.wordB :: ts, prev => atBoundary prev (some c) && reMatchGo c recur ts prev
  | RTok.once a :: ts, _ => atomMatches a c && recur ts (some c)
  | RTok.star a :: ts, prev =>
    reMatchGo c recur ts prev || (atomMatches a c && recur (RTok.star a :: ts) (some c))

/-- Match compiled tokens against a prefix of the remaining input,
recursing on the input. -/
def reMatchAux : List Char → List RTok → Option Char → Bool
  | [], ts, prev => reMatchNil ts prev
  | c :: cs, ts, prev => reMatchGo c (reMatchAux cs) ts prev

/-- Match compiled tokens against a prefix of the remaining input.
`prev` is the character just before the remaining input (for `\b`).
Matching succeeds as soon as all tokens are consumed: input may remain,
which gives the unanchored prefix semantics search builds on. -/
def reMatch (ts : List RTok) (prev : Option Char) (s : List Char) : Bool :=
  reMatchAux s ts prev

/-- Try to match at the current position, then at every later position. -/
def searchFrom : List RTok → Option Char → List Char → Bool
  | ts, prev, [] => reMatch ts prev []
  | ts, prev, c :: cs => reMatch ts prev (c :: cs) || searchFrom ts (some c) cs

/-- Modelled from the spec: unanchored search (`re.search` semantics) of a
compiled pattern over a value. -/
def reSearch (ts : List RTok) (s : List Char) : Bool := searchFrom ts none s

/-- The character immediately before position `n` of the input, given the
character `prev` before the whole input. Used to state what "the pattern
matches anywhere in the value" means. -/
def prevAt (prev : Option Char) : List Char → Nat → Option Char
  | _, 0 => prev
  | [], _ + 1 => none
  | c :: cs, n + 1 => prevAt (some c) cs n

/-! ## String helpers (literal substring operators) -/

/-- Does `p` occur as a prefix of `s` (character lists)? -/
def listStarts : List Char → List Char → Bool
  | [], _ => true
  | _ :: _, [] => false
  | p :: ps, c :: cs => p == c && listStarts ps cs

/-- Does `p` occur as a contiguous sublist of `s`? -/
def listInfixB (p : List Char) : List Char → Bool
  | [] => listStarts p []
  | c :: cs => listStarts p (c :: cs) || listInfixB p cs

/-- Literal, case-sensitive substring containment on strings. -/
def strContains (value pat : String) : Bool := listInfixB pat.toList value.toList

/-- Does `value` begin with `pat`? -/
def strStarts (value pat : String) : Bool := listStarts pat.toList value.toList

/-- Does `value` end with `pat`? -/
def strEnds (value pat : String) : Bool := listStarts pat.toList.reverse value.toList.reverse

/-! ## Matcher -/

/-- The operator names the engine recognises. -/
def knownOps : List String :=
  ["regex_match", "contains", "not_contains", "equals", "starts_with", "ends_with"]

/-- Modelled from the spec: the Matcher contract
`matches(value, operator, pattern) -> bool` of the missing
`rule_engine.py` (named `opMatches` here because `matches` is reserved). An unrecognised operator evaluates to non-match; a
`regex_match` whose pattern fails to compile evaluates to non-match. -/
def opMatches (value oper pat : String) : Bool :=
  if oper = "regex_match" then
    match compileRegex pat with
    | some ts => reSearch ts value.toList
    | none => false
  else if oper = "contains" then strContains value pat
  else if oper = "not_contains" then !strContains value pat
  else if oper = "equals" then value == pat
  else if oper = "starts_with" then strStarts value pat
  else if oper = "ends_with" then strEnds value pat
  else false

/-! ## Data model -/

/-- A single field/operator/pattern test within a rule. -/
structure Condition where
  field : String
  oper : String
  pat : String
  deriving DecidableEq, Repr

/-- Rule actions: `warn` is the default, `block` is the other (named
`RAction` to avoid the library's `Action`). -/
inductive RAction where
  | warn
  | block
  deriving DecidableEq, Repr

/-- Modelled from the spec: a compiled rule of the missing engine. -/
structure Rule where
  name : String
  enabled : Bool
  event_category : String
  legacy_pattern : Option String
  conditions : List Condition
  action : RAction
  message_body : String
  deriving DecidableEq, Repr

/-- The event submitted for policy evaluation: a category and a mapping
from field name to string value. -/
structure ToolEvent where
  category : String
  fields : List (String × String)
  deriving DecidableEq, Repr

/-- Possible decision actions. -/
inductive DAction where
  | allow
  | warn
  | block
  deriving DecidableEq, Repr

/-- The engine's single output per event. -/
structure Decision where
  action : DAction
  reason : String
  diagnostics : List Diag
  deriving DecidableEq, Repr

/-- Modelled from the spec: an absent field is substituted with the empty
string, never treated as a missing-field error. -/
def getField (e : ToolEvent) (name : String) : String :=
  (e.fields.lookup name).getD ""

/-- Evaluate one condition against the event. -/
def condMatches (e : ToolEvent) (c : Condition) : Bool :=
  opMatches (getField e c.field) c.oper c.pat

/-- Modelled from the spec: the default field a legacy pattern is matched
against — the newly written text for file-edit actions, the command text
otherwise. -/
def defaultField (cat : String) : String :=
  if cat = "file" then "new_text" else "command"

/-- Modelled from the spec: a legacy pattern is treated as a synthetic
single `regex_match` condition on the category's default field, ahead of
any explicit conditions. -/
def effectiveConds (r : Rule) : List Condition :=
  (match r.legacy_pattern with
   | some p => [⟨defaultField r.event_category, "regex_match", p⟩]
   | none => []) ++ r.conditions

/-- Diagnostics produced while evaluating one rule's conditions: an
invalid `regex_match` pattern is reported per occurrence, an unknown
operator on its first encounter within the rule (`seen` carries the
operators already reported). -/
def ruleDiagsAux : List Condition → List String → List Diag
  | [], _ => []
  | c :: cs, seen =>
    if c.oper ∈ knownOps then
      (if c.oper = "regex_match" ∧ compileRegex c.pat = none
       then [Diag.invalidPattern c.pat] else []) ++ ruleDiagsAux cs seen
    else if c.oper ∈ seen then ruleDiagsAux cs seen
    else Diag.unknownOp c.oper :: ruleDiagsAux cs (c.oper :: seen)

/-- All diagnostics a rule contributes during evaluation. -/
def ruleDiags (r : Rule) : List Diag := ruleDiagsAux (effectiveConds r) []

/-- Step 1 of the engine: is the rule enabled and applicable to the
event's category (its own category, or the wildcard)? -/
def isCandidate (r : Rule) (e : ToolEvent) : Bool :=
  r.enabled && (r.event_category == "*" || r.event_category == e.category)

/-- The enabled, category-applicable rules, in rule-set order. -/
def candidateRules (rules : List Rule) (e : ToolEvent) : List Rule :=
  rules.filter (fun r => isCandidate r e)

/-- Step 2: a rule matches when it has at least one effective condition
and all of them match (logical AND). -/
def ruleMatches (r : Rule) (e : ToolEvent) : Bool :=
  !(effectiveConds r).isEmpty && (effectiveConds r).all (fun c => condMatches e c)

/-- The matching candidates, in rule-set order. -/
def matchingRules (rules : List Rule) (e : ToolEvent) : List Rule :=
  (candidateRules rules e).filter (fun r => ruleMatches r e)

/-- Diagnostics accumulated during one evaluation: those of every
candidate rule, in rule-set order. -/
def evalDiags (rules : List Rule) (e : ToolEvent) : List Diag :=
  ((candidateRules rules e).map ruleDiags).flatten

/-- Modelled from the spec: `evaluate_rules` of the missing
`rule_engine.py` (decision composition). Among matching rules, in
rule-set order (the Rule Source enumerates files in lexical file-name
order), the first `block` rule wins; otherwise the first `warn` rule;
otherwise allow with empty reason. -/
def evaluate_rules (rules : List Rule) (e : ToolEvent) : Decision :=
  match (matchingRules rules e).find? (fun r => decide (r.action = RAction.block)) with
  | some r => ⟨DAction.block, r.message_body, evalDiags rules e⟩
  | none =>
    match (matchingRules rules e).find? (fun r => decide (r.action = RAction.warn)) with
    | some r => ⟨DAction.warn, r.message_body, evalDiags rules e⟩
    | none => ⟨DAction.allow, "", evalDiags rules e⟩

/-! ## Frontmatter extraction and rule compilation

Modelled from the spec: the missing `config_loader.py` splits a rule file
into a metadata block between `---` delimiter lines and a trailing message
body, with a permissive line-based grammar: scalar `key: value` pairs, one
nested `conditions` list of maps, quoted values with escaped backslashes,
unknown keys ignored. -/

/-- Split text into lines at newline characters (the semantics of
splitting on a one-character separator). -/
def splitLinesAux : List Char → List Char → List String
  | [], acc => [String.mk acc.reverse]
  | '\n' :: rest, acc => String.mk acc.reverse :: splitLinesAux rest []
  | c :: rest, acc => splitLinesAux rest (c :: acc)

/-- The lines of a text. -/
def splitLines (s : String) : List String := splitLinesAux s.toList []

/-- Drop leading whitespace characters. -/
def dropWS : List Char → List Char
  | [] => []
  | c :: cs => if c.isWhitespace then dropWS cs else c :: cs

/-- Strip whitespace from both ends of a string. -/
def trimStr (s : String) : String :=
  String.mk (dropWS (dropWS s.toList).reverse).reverse

/-- Split a line at its first colon into key and value texts. -/
def splitColon : List Char → Option (List Char × List Char)
  | [] => none
  | ':' :: rest => some ([], rest)
  | c :: rest =>
    match splitColon rest with
    | none => none
    | some (k, v) => some (c :: k, v)

/-- Undo doubled backslashes inside a quoted value (the one practical
subtlety: regex patterns carry escaped backslashes in the rule files). -/
def unescapeBS : List Char → List Char
  | [] => []
  | '\\' :: '\\' :: rest => '\\' :: unescapeBS rest
  | c :: rest => c :: unescapeBS rest

/-- Interpret a scalar value: a double-quoted value is unquoted and its
doubled backslashes undone; anything else is taken verbatim. -/
def parseValue (v : String) : String :=
  let cs := v.toList
  match cs with
  | '"' :: rest =>
    match rest.reverse with
    | '"' :: midRev => String.mk (unescapeBS midRev.reverse)
    | _ => v
  | _ => v

/-- Parse a `key: value` line into a trimmed key and interpreted value. -/
def parseKV (line : String) : Option (String × String) :=
  match splitColon line.toList with
  | none => none
  | some (k, v) => some (trimStr (String.mk k), parseValue (trimStr (String.mk v)))

/-- Set one key of a condition under construction; unknown keys are
ignored. -/
def setCondKey (c : Condition) (k v : String) : Condition :=
  if k = "field" then { c with field := v }
  else if k = "operator" then { c with oper := v }
  else if k = "pattern" then { c with pat := v }
  else c

/-- The empty condition a new `- ` list item starts from. -/
def emptyCond : Condition := ⟨"", "", ""⟩

/-- Close the condition currently under construction, if any. -/
def flushCond (conds : List Condition) : Option Condition → List Condition
  | none => conds
  | some c => conds ++ [c]

/-- One pass over the metadata lines: scalar pairs at top level, `- `
items and their indented keys inside the `conditions` block; blank and
unparsable lines are ignored (permissive grammar). -/
def parseMetaAux : List String → List (String × String) → List Condition →
    Option Condition → Bool → List (String × String) × List Condition
  | [], pairs, conds, cur, _ => (pairs, flushCond conds cur)
  | line :: rest, pairs, conds, cur, inConds =>
    let t := trimStr line
    if t = "" then parseMetaAux rest pairs conds cur inConds
    else if strStarts line " " || strStarts line "\t" then
      if inConds then
        if strStarts t "- " then
          match parseKV (String.mk (t.toList.drop 2)) with
          | some (k, v) =>
            parseMetaAux rest pairs (flushCond conds cur) (some (setCondKey emptyCond k v)) true
          | none => parseMetaAux rest pairs (flushCond conds cur) (some emptyCond) true
        else
          match cur, parseKV t with
          | some c, some (k, v) => parseMetaAux rest pairs conds (some (setCondKey c k v)) true
          | _, _ => parseMetaAux rest pairs conds cur true
      else parseMetaAux rest pairs conds cur inConds
    else if t = "conditions:" then parseMetaAux rest pairs (flushCond conds cur) none true
    else
      match parseKV t with
      | some (k, v) => parseMetaAux rest (pairs ++ [(k, v)]) (flushCond conds cur) none false
      | none => parseMetaAux rest pairs (flushCond conds cur) none false

/-- Find the closing `---` delimiter, splitting metadata lines from body
lines; `none` models an unterminated frontmatter block. -/
def splitAtDelim : List String → Option (List String × List String)
  | [] => none
  | l :: ls =>
    if trimStr l = "---" then some ([], ls)
    else
      match splitAtDelim ls with
      | none => none
      | some (m, b) => some (l :: m, b)

/-- Re-join body lines. -/
def joinLines : List String → String
  | [] => ""
  | [l] => l
  | l :: ls => l ++ "\n" ++ joinLines ls

/-- Modelled from the spec: `extract_frontmatter` of the missing
`config_loader.py`. `none` models `MalformedRule`: text not opening with
the delimiter line, or a closing delimiter never found. -/
def extract_frontmatter (text : String) :
    Option (List (String × String) × List Condition × String) :=
  match splitLines text with
  | [] => none
  | first :: rest =>
    if trimStr first = "---" then
      match splitAtDelim rest with
      | none => none
      | some (metaLines, bodyLines) =>
        let pc := parseMetaAux metaLines [] [] none false
        some (pc.1, pc.2, trimStr (joinLines bodyLines))
    else none

/-- Modelled from the spec: the Rule Compiler. `enabled` defaults to true;
`event` is required (absence is treated like malformed, with a diagnostic,
and the rule never takes part); `action` defaults to `warn`. -/
def compileRule (fileName : String) (pairs : List (String × String))
    (conds : List Condition) (body : String) : Except Diag Rule :=
  match pairs.lookup "event" with
  | none => Except.error (Diag.missingEvent fileName)
  | some ev =>
    Except.ok
      { name := (pairs.lookup "name").getD ""
        enabled := !(pairs.lookup "enabled" == some "false")
        event_category := ev
        legacy_pattern := pairs.lookup "pattern"
        conditions := conds
        action := if pairs.lookup "action" == some "block" then RAction.block else RAction.warn
        message_body := body }

/-- Load one rule file: extraction then compilation, every failure turned
into a diagnostic at the rule boundary. -/
def loadRule (fileName text : String) : Except Diag Rule :=
  match extract_frontmatter text with
  | none => Except.error (Diag.malformedFile fileName)
  | some (pairs, conds, body) => compileRule fileName pairs conds body

/-- Load every rule file (given as name/content pairs, already in the Rule
Source's lexical file-name order), separating usable rules from
diagnostics, in file order. -/
def loadRules : List (String × String) → List Rule × List Diag
  | [] => ([], [])
  | (fileName, text) :: rest =>
    let p := loadRules rest
    match loadRule fileName text with
    | Except.ok r => (r :: p.1, p.2)
    | Except.error d => (p.1, d :: p.2)

/-- The state of the rule directory: unreadable, or a list of files in
lexical file-name order. -/
inductive RuleSource where
  | unreadable
  | files (fs : List (String × String))
  deriving DecidableEq, Repr

/-- Modelled from the spec: the fail-open evaluation entry point. An
unreadable rule directory degrades to Allow with empty reason and one
diagnostic; otherwise rules are loaded (malformed files yielding only
diagnostics) and evaluated. Total by construction: it always returns a
Decision. -/
def evaluate (src : RuleSource) (e : ToolEvent) : Decision :=
  match src with
  | RuleSource.unreadable => ⟨DAction.allow, "", [Diag.dirUnreadable]⟩
  | RuleSource.files fs =>
    let p := loadRules fs
    let d := evaluate_rules p.1 e
    ⟨d.action, d.reason, p.2 ++ d.diagnostics⟩

/-! ## SOCKS connection monitor — background service worker

Embedded from `projects/socks-connection-monitor/extension/background.js`. -/

/-- `status.vpn` as delivered by the backend (`detected` read through
optional chaining in the source). -/
structure VpnInfo where
  detected : Bool
  deriving DecidableEq, Repr

/-- `status.proxy` as delivered by the backend. -/
structure ProxyInfo where
  available : Bool
  deriving DecidableEq, Repr

/-- The parsed `/api/status` payload, with the parts `updateBadge` reads.
Optional members model properties that may be absent from the JSON. -/
structure Status where
  status_color : Option String
  vpn : Option VpnInfo
  proxy : Option ProxyInfo
  deriving DecidableEq, Repr

/-- The extension action badge: background color and text. -/
structure Badge where
  color : String
  text : String
  deriving DecidableEq, Repr

/-- `status.vpn?.detected` with source-language truthiness: an absent
member is falsy. -/
def statusVPN (s : Status) : Bool :=
  match s.vpn with
  | some v => v.detected
  | none => false

/-- `status.proxy?.available` with source-language truthiness. -/
def statusConnected (s : Status) : Bool :=
  match s.proxy with
  | some p => p.available
  | none => false

/-- `updateBadge(status)` from `background.js`: a falsy status gives the
gray `?` badge; otherwise the color is `status.status_color || '#666'`
(the empty string being falsy in the source language), and the text is
`VPN` when `status.vpn?.detected` is truthy, else `✓` when
`status.proxy?.available` is truthy, else `✗`. -/
def updateBadge (status : Option Status) : Badge :=
  match status with
  | none => ⟨"#666", "?"⟩
  | some s =>
    let color := match s.status_color with
      | some c => if c = "" then "#666" else c
      | none => "#666"
    ⟨color, if statusVPN s then "VPN" else if statusConnected s then "✓" else "✗"⟩

/-- The possible outcomes of the `fetch` / `response.json()` sequence in
`fetchStatus`: the promise rejects (network failure), the response is not
ok (the code throws `API error`), JSON parsing rejects, or a status is
parsed. -/
inductive FetchOutcome where
  | networkFailure
  | httpNotOk (statusCode : Nat)
  | jsonFailure
  | success (data : Status)
  deriving DecidableEq, Repr

/-- Did the try-block reach its end, or was the catch branch taken? -/
def fetchFailed : FetchOutcome → Bool
  | FetchOutcome.networkFailure => true
  | FetchOutcome.httpNotOk _ => true
  | FetchOutcome.jsonFailure => true
  | FetchOutcome.success _ => false

/-- The worker state `fetchStatus` touches: the module-level `lastStatus`
and the badge. -/
structure WorkerState where
  lastStatus : Option Status
  badge : Badge
  deriving DecidableEq, Repr

/-- `fetchStatus()` from `background.js`, as a state transformer returning
the function's result. On success the parsed status is stored in
`lastStatus`, the badge is updated from it, and the status is returned;
every failure is absorbed by the catch branch, which sets the badge from
`null` and returns `null` (the broadcast `sendMessage` attaches its own
`.catch` and never reaches the outer catch). -/
def fetchStatus (st : WorkerState) (o : FetchOutcome) : WorkerState × Option Status :=
  match o with
  | FetchOutcome.success data =>
    ({ lastStatus := some data, badge := updateBadge (some data) }, some data)
  | _ => ({ st with badge := updateBadge none }, none)

/-- Count the occurrences of one diagnostic in a diagnostic list. -/
def countDiag (d : Diag) : List Diag → Nat
  | [] => 0
  | x :: xs => (if x = d then 1 else 0) + countDiag d xs

/-! ## Helper lemmas -/

theorem countDiag_append (d : Diag) (l1 l2 : List Diag) :
    countDiag d (l1 ++ l2) = countDiag d l1 + countDiag d l2 := by
  induction l1 with
  | nil => simp [countDiag]
  | cons x xs ih => simp [countDiag, ih, Nat.add_assoc]

theorem perm_all_eq {α : Type} (f : α → Bool) {l l' : List α} (h : l.Perm l') :
    l.all f = l'.all f := by
  rw [Bool.eq_iff_iff]
  simp only [List.all_eq_true]
  exact ⟨fun H x hx => H x (h.mem_iff.mpr hx), fun H x hx => H x (h.mem_iff.mp hx)⟩

theorem perm_isEmpty_eq {α : Type} {l l' : List α} (h : l.Perm l') :
    l.isEmpty = l'.isEmpty := by
  cases l with
  | nil => simp [List.Perm.nil_eq h]
  | cons a as =>
    cases l' with
    | nil => exact absurd h.symm (by simp)
    | cons b bs => rfl

theorem searchFrom_iff (ts : List RTok) (s : List Char) (prev : Option Char) :
    searchFrom ts prev s = true ↔
      ∃ n, n ≤ s.length ∧ reMatch ts (prevAt prev s n) (s.drop n) = true := by
  induction s generalizing prev with
  | nil =>
    simp only [searchFrom, List.length_nil, List.drop_nil]
    constructor
    · intro h
      exact ⟨0, Nat.le_refl 0, h⟩
    · rintro ⟨n, hn, h⟩
      have hz : n = 0 := Nat.le_zero.mp hn
      subst hz
      simpa [prevAt] using h
  | cons c cs ih =>
    simp only [searchFrom, Bool.or_eq_true]
    constructor
    · rintro (h | h)
      · exact ⟨0, Nat.zero_le _, by simpa [prevAt] using h⟩
      · obtain ⟨n, hn, hm⟩ := (ih (some c)).mp h
        exact ⟨n + 1, Nat.succ_le_succ hn, by simpa [prevAt] using hm⟩
    · rintro ⟨n, hn, hm⟩
      cases n with
      | zero => exact Or.inl (by simpa [prevAt] using hm)
      | succ m =>
        exact Or.inr ((ih (some c)).mpr ⟨m, Nat.le_of_succ_le_succ hn, by simpa [prevAt] using hm⟩)

theorem mem_ruleDiagsAux_invalid (c : Condition) (hop : c.oper = "regex_match")
    (hbad : compileRegex c.pat = none) (conds : List Condition) :
    ∀ seen : List String, c ∈ conds →
      Diag.invalidPattern c.pat ∈ ruleDiagsAux conds seen := by
  induction conds with
  | nil => intro seen h; simp at h
  | cons a as ih =>
    intro seen hmem
    rcases List.mem_cons.mp hmem with h | h
    · subst h
      have h1 : c.oper ∈ knownOps := by rw [hop]; decide
      simp only [ruleDiagsAux, if_pos h1, if_pos (And.intro hop hbad)]
      exact List.mem_append_left _ (List.mem_singleton.mpr rfl)
    · simp only [ruleDiagsAux]
      split
      · exact List.mem_append_right _ (ih seen h)
      · split
        · exact ih seen h
        · exact List.mem_cons_of_mem _ (ih _ h)

theorem countDiag_unknown_zero (o : String) (conds : List Condition) :
    ∀ seen : List String, o ∈ seen →
      countDiag (Diag.unknownOp o) (ruleDiagsAux conds seen) = 0 := by
  induction conds with
  | nil => intro seen _; rfl
  | cons a as ih =>
    intro seen hseen
    simp only [ruleDiagsAux]
    split
    · rw [countDiag_append, ih seen hseen]
      have h1 : countDiag (Diag.unknownOp o)
          (if a.oper = "regex_match" ∧ compileRegex a.pat = none
           then [Diag.invalidPattern a.pat] else []) = 0 := by
        split
        · simp [countDiag]
        · rfl
      rw [h1]
    · split
      · exact ih seen hseen
      · next hseen' =>
        simp only [countDiag]
        have hne : Diag.unknownOp a.oper ≠ Diag.unknownOp o := by
          intro hc
          injection hc with hc'
          exact hseen' (hc' ▸ hseen)
        rw [if_neg hne, ih (a.oper :: seen) (List.mem_cons_of_mem _ hseen)]

theorem countDiag_unknown_one (o : String) (ho : o ∉ knownOps) (conds : List Condition) :
    ∀ seen : List String, o ∉ seen → (∃ c ∈ conds, c.oper = o) →
      countDiag (Diag.unknownOp o) (ruleDiagsAux conds seen) = 1 := by
  induction conds with
  | nil =>
    rintro seen _ ⟨c, hc, _⟩
    simp at hc
  | cons a as ih =>
    rintro seen hseen ⟨c, hc, hco⟩
    simp only [ruleDiagsAux]
    by_cases hk : a.oper ∈ knownOps
    · rw [if_pos hk, countDiag_append]
      have hne : a.oper ≠ o := fun h => ho (h ▸ hk)
      have hcas : c ∈ as := by
        rcases List.mem_cons.mp hc with h | h
        · exact absurd (h ▸ hco) hne
        · exact h
      have h1 : countDiag (Diag.unknownOp o)
          (if a.oper = "regex_match" ∧ compileRegex a.pat = none
           then [Diag.invalidPattern a.pat] else []) = 0 := by
        split
        · simp [countDiag]
        · rfl
      rw [h1, ih seen hseen ⟨c, hcas, hco⟩]
    · rw [if_neg hk]
      by_cases hs : a.oper ∈ seen
      · rw [if_pos hs]
        have hne : a.oper ≠ o := fun h => hseen (h ▸ hs)
        have hcas : c ∈ as := by
          rcases List.mem_cons.mp hc with h | h
          · exact absurd (h ▸ hco) hne
          · exact h
        exact ih seen hseen ⟨c, hcas, hco⟩
      · rw [if_neg hs]
        by_cases hao : a.oper = o
        · simp only [countDiag, if_pos (congrArg Diag.unknownOp hao)]
          rw [countDiag_unknown_zero o as (a.oper :: seen)
            (hao ▸ List.mem_cons_self a.oper seen)]
        · simp only [countDiag]
          have hne : Diag.unknownOp a.oper ≠ Diag.unknownOp o := by
            intro hcx
            injection hcx with hc'
            exact hao hc'
          rw [if_neg hne, Nat.zero_add]
          have hcas : c ∈ as := by
            rcases List.mem_cons.mp hc with h | h
            · exact absurd (h ▸ hco) (fun hx => hao hx)
            · exact h
          refine ih (a.oper :: seen) ?_ ⟨c, hcas, hco⟩
          intro hx
          rcases List.mem_cons.mp hx with h | h
          · exact hao h.symm
          · exact hseen h

theorem loadRules_all_malformed (fs : List (String × String))
    (h : ∀ f ∈ fs, extract_frontmatter f.2 = none) :
    loadRules fs = ([], fs.map fun f => Diag.malformedFile f.1) := by
  induction fs with
  | nil => rfl
  | cons f rest ih =>
    obtain ⟨fileName, text⟩ := f
    have hf := h (fileName, text) (List.mem_cons_self _ rest)
    simp only [loadRules, loadRule, hf]
    rw [ih (fun g hg => h g (List.mem_cons_of_mem _ hg))]
    rfl

/-- C9: fetchStatus never propagates an exception: every failure outcome is
absorbed by the catch branch, which sets the badge to the unknown state and
returns null; on success the parsed status is stored in lastStatus, the
badge is updated from it, and the status is returned. -/
theorem fetchStatus_no_throw (st : WorkerState) :
    updateBadge none = ⟨"#666", "?"⟩ ∧
    (∀ o, fetchFailed o = true →
      fetchStatus st o = ({ st with badge := updateBadge none }, none)) ∧
    (∀ d, fetchStatus st (FetchOutcome.success d) =
      ({ lastStatus := some d, badge := updateBadge (some d) }, some d)) := by
  refine ⟨rfl, ?_, fun d => rfl⟩
  intro o ho
  cases o with
  | networkFailure => rfl
  | httpNotOk sc => rfl
  | jsonFailure => rfl
  | success d => simp [fetchFailed] at ho

theorem fetchStatus_no_throw_witness :
    fetchStatus ⟨some ⟨none, none, none⟩, ⟨"#0f0", "✓"⟩⟩ FetchOutcome.networkFailure =
      (⟨some ⟨none, none, none⟩, ⟨"#666", "?"⟩⟩, none) :=
  (fetchStatus_no_throw ⟨some ⟨none, none, none⟩, ⟨"#0f0", "✓"⟩⟩).2.1
    FetchOutcome.networkFailure rfl

/-- C10 counterexample: with VPN detected but the proxy unavailable, the
badge text is "VPN", not the "✗" the claim's case split assigns to every
case other than both-true and proxy-only. -/
theorem updateBadge_vpn_only_cex :
    (updateBadge (some ⟨some "#800080", some ⟨true⟩, some ⟨false⟩⟩)).text = "VPN" ∧
    ("VPN" : String) ≠ "✗" := by
  exact ⟨rfl, by decide⟩

/-- C10 (amended): a null status yields the gray "?" badge; every badge
text is one of "?", "VPN", "✓", "✗"; VPN detection takes precedence, so
text is "VPN" whenever vpn.detected is truthy (regardless of the proxy),
"✓" when only the proxy is available, "✗" when neither holds. -/
theorem updateBadge_spec (s : Status) :
    updateBadge none = ⟨"#666", "?"⟩ ∧
    (∀ os : Option Status, (updateBadge os).text = "?" ∨ (updateBadge os).text = "VPN" ∨
      (updateBadge os).text = "✓" ∨ (updateBadge os).text = "✗") ∧
    (statusVPN s = true → (updateBadge (some s)).text = "VPN") ∧
    (statusVPN s = false → statusConnected s = true → (updateBadge (some s)).text = "✓") ∧
    (statusVPN s = false → statusConnected s = false → (updateBadge (some s)).text = "✗") := by
  refine ⟨rfl, ?_, ?_, ?_, ?_⟩
  · intro os
    cases os with
    | none => exact Or.inl rfl
    | some s' =>
      simp only [updateBadge]
      by_cases h1 : statusVPN s' = true
      · simp [h1]
      · by_cases h2 : statusConnected s' = true
        · simp [h1, h2]
        · simp [h1, h2]
  · intro h
    simp [updateBadge, h]
  · intro h1 h2
    simp [updateBadge, h1, h2]
  · intro h1 h2
    simp [updateBadge, h1, h2]

theorem updateBadge_spec_witness :
    (updateBadge (some ⟨none, some ⟨true⟩, some ⟨true⟩⟩)).text = "VPN" :=
  (updateBadge_spec ⟨none, some ⟨true⟩, some ⟨true⟩⟩).2.2.1 rfl

/-- C4 counterexample: a `not_contains` condition with empty pattern on a
missing field evaluates to false (the empty string contains the empty
pattern), not true as the claim states for every such condition. -/
theorem missing_field_not_contains_cex :
    (ToolEvent.mk "bash" []).fields.lookup "command" = none ∧
    condMatches (ToolEvent.mk "bash" []) ⟨"command", "not_contains", ""⟩ = false := by
  exact ⟨rfl, rfl⟩

/-- C4 (amended): a missing field is substituted with the empty string and
never raises; consequently `not_contains` with a non-empty pattern on a
missing field is true, and `equals` with a non-empty pattern is false. -/
theorem missing_field_empty_string (e : ToolEvent) (c : Condition)
    (h : e.fields.lookup c.field = none) :
    getField e c.field = "" ∧
    (c.oper = "not_contains" → c.pat ≠ "" → condMatches e c = true) ∧
    (c.oper = "equals" → c.pat ≠ "" → condMatches e c = false) := by
  have hg : getField e c.field = "" := by simp [getField, h]
  refine ⟨hg, ?_, ?_⟩
  · intro hop hp
    have hnil : c.pat.toList ≠ [] := by
      intro hc
      apply hp
      cases hpat : c.pat with
      | mk l =>
        rw [hpat] at hc
        simp [String.toList] at hc
        simp [hc]
    rw [condMatches, hg, hop]
    rw [opMatches, if_neg (by decide), if_neg (by decide), if_pos rfl]
    cases hl : c.pat.toList with
    | nil => exact absurd hl hnil
    | cons a as =>
      have hd : c.pat.data = a :: as := by simpa [String.toList] using hl
      simp [strContains, listInfixB, String.toList, hd, listStarts]
  · intro hop hp
    rw [condMatches, hg, hop]
    rw [opMatches, if_neg (by decide), if_neg (by decide), if_neg (by decide),
      if_pos rfl]
    rw [beq_eq_false_iff_ne]
    exact fun hc => hp hc.symm

theorem missing_field_empty_string_witness :
    condMatches (ToolEvent.mk "bash" [("other", "x")]) ⟨"command", "not_contains", "rm"⟩ = true :=
  (missing_field_empty_string (ToolEvent.mk "bash" [("other", "x")])
    ⟨"command", "not_contains", "rm"⟩ rfl).2.1 rfl (by decide)

/-- C5: a disabled rule never participates: it is never a candidate, never
survives the candidate filter, and the Decision for any event is identical
to the Decision with the rule removed from the rule set. -/
theorem disabled_rule_inert (pre post : List Rule) (r : Rule) (e : ToolEvent)
    (h : r.enabled = false) :
    isCandidate r e = false ∧
    (∀ rs : List Rule, r ∉ candidateRules rs e) ∧
    evaluate_rules (pre ++ r :: post) e = evaluate_rules (pre ++ post) e := by
  have hc : isCandidate r e = false := by simp [isCandidate, h]
  have hfilter : candidateRules (pre ++ r :: post) e = candidateRules (pre ++ post) e := by
    simp [candidateRules, List.filter_append, List.filter_cons_of_neg, hc]
  refine ⟨hc, ?_, ?_⟩
  · intro rs hmem
    have := (List.mem_filter.mp hmem).2
    rw [hc] at this
    exact Bool.false_ne_true this
  · simp only [evaluate_rules, matchingRules, evalDiags, hfilter]

theorem disabled_rule_inert_witness :
    isCandidate ⟨"off", false, "bash", none, [⟨"command", "contains", "rm"⟩],
      RAction.block, "no"⟩ ⟨"bash", [("command", "rm -rf /")]⟩ = false ∧
    evaluate_rules [⟨"off", false, "bash", none, [⟨"command", "contains", "rm"⟩],
      RAction.block, "no"⟩] ⟨"bash", [("command", "rm -rf /")]⟩ =
      evaluate_rules [] ⟨"bash", [("command", "rm -rf /")]⟩ := by
  have h := disabled_rule_inert [] []
    ⟨"off", false, "bash", none, [⟨"command", "contains", "rm"⟩], RAction.block, "no"⟩
    ⟨"bash", [("command", "rm -rf /")]⟩ rfl
  exact ⟨h.1, h.2.2⟩

/-- C8: a rule's match result is invariant under permutation of its
conditions list (they are combined with logical AND). -/
theorem conditions_order_irrelevant (r : Rule) (conds' : List Condition) (e : ToolEvent)
    (h : r.conditions.Perm conds') :
    ruleMatches { r with conditions := conds' } e = ruleMatches r e := by
  have hperm : (effectiveConds { r with conditions := conds' }).Perm (effectiveConds r) := by
    simp only [effectiveConds]
    exact List.Perm.append_left _ h.symm
  simp only [ruleMatches]
  rw [perm_all_eq (fun c => condMatches e c) hperm, perm_isEmpty_eq hperm]

theorem conditions_order_irrelevant_witness :
    ruleMatches ⟨"two", true, "bash", none,
      [⟨"command", "contains", "rf"⟩, ⟨"command", "contains", "rm"⟩],
      RAction.warn, "m"⟩ ⟨"bash", [("command", "rm -rf /")]⟩ =
    ruleMatches ⟨"two", true, "bash", none,
      [⟨"command", "contains", "rm"⟩, ⟨"command", "contains", "rf"⟩],
      RAction.warn, "m"⟩ ⟨"bash", [("command", "rm -rf /")]⟩ :=
  conditions_order_irrelevant
    ⟨"two", true, "bash", none,
      [⟨"command", "contains", "rm"⟩, ⟨"command", "contains", "rf"⟩],
      RAction.warn, "m"⟩
    [⟨"command", "contains", "rf"⟩, ⟨"command", "contains", "rm"⟩]
    ⟨"bash", [("command", "rm -rf /")]⟩
    (List.Perm.swap _ _ _)

/-- C6: a condition whose regex pattern fails to compile is neutralized:
it never matches and a diagnostic is recorded; the rule keeps its other
conditions and is not discarded — it still passes the candidate filter,
and a rule containing such a condition simply never matches. -/
theorem invalid_pattern_neutralizes (r : Rule) (c : Condition) (e : ToolEvent)
    (hop : c.oper = "regex_match") (hbad : compileRegex c.pat = none) :
    condMatches e c = false ∧
    (c ∈ effectiveConds r → Diag.invalidPattern c.pat ∈ ruleDiags r) ∧
    (c ∈ effectiveConds r → ruleMatches r e = false) ∧
    (∀ rules : List Rule, r ∈ rules → isCandidate r e = true →
      r ∈ candidateRules rules e) := by
  have hcm : condMatches e c = false := by
    rw [condMatches, hop, opMatches, if_pos rfl, hbad]
  refine ⟨hcm, ?_, ?_, ?_⟩
  · intro hmem
    exact mem_ruleDiagsAux_invalid c hop hbad (effectiveConds r) [] hmem
  · intro hmem
    have hall : (effectiveConds r).all (fun x => condMatches e x) = false := by
      rw [List.all_eq_false]
      exact ⟨c, hmem, by simp [hcm]⟩
    simp [ruleMatches, hall]
  · intro rules hmem hcand
    exact List.mem_filter.mpr ⟨hmem, hcand⟩

theorem invalid_pattern_neutralizes_witness :
    condMatches ⟨"bash", [("command", "anything")]⟩ ⟨"command", "regex_match", "("⟩ = false ∧
    Diag.invalidPattern "(" ∈ ruleDiags ⟨"bad", true, "bash", none,
      [⟨"command", "regex_match", "("⟩, ⟨"command", "contains", "rm"⟩],
      RAction.block, "m"⟩ := by
  have h := invalid_pattern_neutralizes
    ⟨"bad", true, "bash", none,
      [⟨"command", "regex_match", "("⟩, ⟨"command", "contains", "rm"⟩],
      RAction.block, "m"⟩
    ⟨"command", "regex_match", "("⟩ ⟨"bash", [("command", "anything")]⟩ rfl rfl
  exact ⟨h.1, h.2.1 (by decide)⟩

/-- C7: an unrecognized operator evaluates to non-match without raising,
and a rule reports one unknown-operator diagnostic per operator on its
first encounter within the rule. -/
theorem unknown_operator_neutral (value pat op : String) (r : Rule)
    (hop : op ∉ knownOps) :
    opMatches value op pat = false ∧
    (r.legacy_pattern = none → (∃ c ∈ r.conditions, c.oper = op) →
      countDiag (Diag.unknownOp op) (ruleDiags r) = 1) := by
  have hne : op ≠ "regex_match" ∧ op ≠ "contains" ∧ op ≠ "not_contains" ∧
      op ≠ "equals" ∧ op ≠ "starts_with" ∧ op ≠ "ends_with" := by
    by_contra hc
    push_neg at hc
    rcases (by tauto :
      op = "regex_match" ∨ op = "contains" ∨ op = "not_contains" ∨
      op = "equals" ∨ op = "starts_with" ∨ op = "ends_with") with
      h | h | h | h | h | h <;> exact hop (by rw [h]; decide)
  obtain ⟨h1, h2, h3, h4, h5, h6⟩ := hne
  refine ⟨?_, ?_⟩
  · rw [opMatches, if_neg h1, if_neg h2, if_neg h3, if_neg h4, if_neg h5, if_neg h6]
  · intro hleg hex
    have heff : effectiveConds r = r.conditions := by
      simp [effectiveConds, hleg]
    rw [ruleDiags, heff]
    exact countDiag_unknown_one op hop r.conditions [] (by simp) hex

theorem unknown_operator_neutral_witness :
    opMatches "abc" "fuzzy" "a" = false ∧
    countDiag (Diag.unknownOp "fuzzy") (ruleDiags ⟨"u", true, "bash", none,
      [⟨"command", "fuzzy", "a"⟩, ⟨"command", "fuzzy", "b"⟩],
      RAction.warn, "m"⟩) = 1 := by
  have h := unknown_operator_neutral "abc" "a" "fuzzy"
    ⟨"u", true, "bash", none,
      [⟨"command", "fuzzy", "a"⟩, ⟨"command", "fuzzy", "b"⟩], RAction.warn, "m"⟩
    (by decide)
  exact ⟨h.1, h.2 rfl ⟨⟨"command", "fuzzy", "a"⟩, by decide, rfl⟩⟩

/-- C3: `regex_match` compiles the pattern case-insensitively and succeeds
exactly when the compiled pattern matches anywhere in the value (unanchored
search, not a full-string match); in particular, pattern "ERROR" matches
the value "an error occurred". -/
theorem regex_match_search_anywhere (value pat : String) (ts : List RTok)
    (h : compileRegex pat = some ts) :
    (opMatches value "regex_match" pat = true ↔
      ∃ n, n ≤ value.toList.length ∧
        reMatch ts (prevAt none value.toList n) (value.toList.drop n) = true) ∧
    opMatches "an error occurred" "regex_match" "ERROR" = true := by
  constructor
  · rw [opMatches, if_pos rfl, h]
    exact searchFrom_iff ts value.toList none
  · decide

theorem regex_match_search_anywhere_witness :
    opMatches "an error occurred" "regex_match" "ERROR" = true :=
  (regex_match_search_anywhere "an error occurred" "ERROR"
    [RTok.once (RAtom.lit 'e'), RTok.once (RAtom.lit 'r'), RTok.once (RAtom.lit 'r'),
     RTok.once (RAtom.lit 'o'), RTok.once (RAtom.lit 'r')] (by decide)).2

/-- C2: deterministic composition from the matching rules in rule-set
order: the first block rule determines Block with its message body
(dominating any earlier warn rule); otherwise the first warn rule
determines Warn with its body; otherwise Allow with empty reason. -/
theorem evaluate_rules_composition (rules : List Rule) (e : ToolEvent) :
    ((∃ r ∈ matchingRules rules e, r.action = RAction.block) →
      ∃ pre r post, matchingRules rules e = pre ++ r :: post ∧
        r.action = RAction.block ∧ (∀ x ∈ pre, x.action ≠ RAction.block) ∧
        (evaluate_rules rules e).action = DAction.block ∧
        (evaluate_rules rules e).reason = r.message_body) ∧
    ((∀ r ∈ matchingRules rules e, r.action ≠ RAction.block) →
      ∀ pre r post, matchingRules rules e = pre ++ r :: post →
        (∀ x ∈ pre, x.action ≠ RAction.warn) → r.action = RAction.warn →
        (evaluate_rules rules e).action = DAction.warn ∧
        (evaluate_rules rules e).reason = r.message_body) ∧
    (matchingRules rules e = [] →
      (evaluate_rules rules e).action = DAction.allow ∧
      (evaluate_rules rules e).reason = "") ∧
    (∀ w b, matchingRules rules e = [w, b] → w.action = RAction.warn →
      b.action = RAction.block →
      (evaluate_rules rules e).action = DAction.block ∧
      (evaluate_rules rules e).reason = b.message_body) := by
  refine ⟨?_, ?_, ?_, ?_⟩
  · rintro ⟨r0, hr0, hb0⟩
    cases hf : (matchingRules rules e).find? (fun r => decide (r.action = RAction.block)) with
    | none =>
      have := List.find?_eq_none.mp hf r0 hr0
      simp [hb0] at this
    | some r' =>
      obtain ⟨hp, as, bs, heq, hpre⟩ := List.find?_eq_some.mp hf
      refine ⟨as, r', bs, heq, of_decide_eq_true hp, ?_, ?_, ?_⟩
      · intro x hx
        have := hpre x hx
        simpa using this
      · simp only [evaluate_rules, hf]
      · simp only [evaluate_rules, hf]
  · intro hall pre r post heq hprew hrw
    have hfb : (matchingRules rules e).find? (fun r => decide (r.action = RAction.block)) =
        none := by
      rw [List.find?_eq_none]
      intro x hx
      simp [hall x hx]
    have hfw : (matchingRules rules e).find? (fun r => decide (r.action = RAction.warn)) =
        some r := by
      rw [List.find?_eq_some]
      exact ⟨by simp [hrw], pre, post, heq, fun a ha => by simp [hprew a ha]⟩
    constructor
    · simp only [evaluate_rules, hfb, hfw]
    · simp only [evaluate_rules, hfb, hfw]
  · intro heq
    have hfb : (matchingRules rules e).find? (fun r => decide (r.action = RAction.block)) =
        none := by rw [heq]; rfl
    have hfw : (matchingRules rules e).find? (fun r => decide (r.action = RAction.warn)) =
        none := by rw [heq]; rfl
    constructor
    · simp only [evaluate_rules, hfb, hfw]
    · simp only [evaluate_rules, hfb, hfw]
  · intro w b heq hw hb
    have hfb : (matchingRules rules e).find? (fun r => decide (r.action = RAction.block)) =
        some b := by
      rw [heq]
      simp [List.find?, hw, hb]
    constructor
    · simp only [evaluate_rules, hfb]
    · simp only [evaluate_rules, hfb]

theorem evaluate_rules_composition_witness :
    (evaluate_rules
      [⟨"a-warn", true, "bash", none, [⟨"command", "contains", "rm"⟩], RAction.warn, "w"⟩,
       ⟨"b-block", true, "bash", none, [⟨"command", "contains", "rm"⟩], RAction.block, "b"⟩]
      ⟨"bash", [("command", "rm -rf /")]⟩).action = DAction.block ∧
    (evaluate_rules
      [⟨"a-warn", true, "bash", none, [⟨"command", "contains", "rm"⟩], RAction.warn, "w"⟩,
       ⟨"b-block", true, "bash", none, [⟨"command", "contains", "rm"⟩], RAction.block, "b"⟩]
      ⟨"bash", [("command", "rm -rf /")]⟩).reason = "b" :=
  (evaluate_rules_composition
    [⟨"a-warn", true, "bash", none, [⟨"command", "contains", "rm"⟩], RAction.warn, "w"⟩,
     ⟨"b-block", true, "bash", none, [⟨"command", "contains", "rm"⟩], RAction.block, "b"⟩]
    ⟨"bash", [("command", "rm -rf /")]⟩).2.2.2
    ⟨"a-warn", true, "bash", none, [⟨"command", "contains", "rm"⟩], RAction.warn, "w"⟩
    ⟨"b-block", true, "bash", none, [⟨"command", "contains", "rm"⟩], RAction.block, "b"⟩
    (by decide) rfl rfl

/-- C1: the evaluation entry point is a total function (it returns a
Decision for every rule-directory state and event, by construction): an
unreadable rule directory yields exactly Allow, empty reason and one
diagnostic, and a directory of only malformed rule files yields Allow,
empty reason and one diagnostic per file. -/
theorem evaluate_fail_open (e : ToolEvent) :
    evaluate RuleSource.unreadable e = ⟨DAction.allow, "", [Diag.dirUnreadable]⟩ ∧
    (evaluate RuleSource.unreadable e).diagnostics.length = 1 ∧
    (∀ fs : List (String × String), (∀ f ∈ fs, extract_frontmatter f.2 = none) →
      (evaluate (RuleSource.files fs) e).action = DAction.allow ∧
      (evaluate (RuleSource.files fs) e).reason = "" ∧
      (evaluate (RuleSource.files fs) e).diagnostics.length = fs.length) := by
  refine ⟨rfl, rfl, ?_⟩
  intro fs h
  have hl := loadRules_all_malformed fs h
  have he : evaluate (RuleSource.files fs) e =
      ⟨DAction.allow, "", (fs.map fun f => Diag.malformedFile f.1) ++ []⟩ := by
    simp only [evaluate, hl]
    rfl
  rw [he]
  simp

theorem evaluate_fail_open_witness :
    (evaluate (RuleSource.files [("bad.md", "oops")]) ⟨"bash", []⟩).action =
      DAction.allow ∧
    (evaluate (RuleSource.files [("bad.md", "oops")]) ⟨"bash", []⟩).diagnostics.length = 1 := by
  have h := (evaluate_fail_open ⟨"bash", []⟩).2.2 [("bad.md", "oops")]
    (by
      intro f hf
      rw [List.mem_singleton] at hf
      subst hf
      decide)
  exact ⟨h.1, h.2.2⟩
